import Mathlib

/-
  Shallow embedding of the array container (`src/containers/array.c`) of a
  compressed bitmap library: a dynamically sized, strictly increasing sorted
  sequence of 16-bit values backed by a growable buffer.

  Machine integers are modelled as `Nat` (capacities, cardinalities and stored
  values are always non-negative and far from the int32 range in every claim;
  C integer division of non-negative operands agrees with `Nat` division).
  The backing buffer is a `List Nat` whose length equals `capacity`; a write
  beyond the end of the buffer is dropped (the C code would overrun the heap
  there, which is undefined behaviour).
-/

namespace CRoaring

/-- The array container entity: `capacity` allocated slots, `cardinality`
logical element count, `array` the backing buffer (length = `capacity`). -/
structure array_container_t where
  capacity : Nat
  cardinality : Nat
  array : List Nat
deriving Repr, DecidableEq

def DEFAULT_INIT_SIZE : Nat := 16

def INT32_MAX : Nat := 2147483647

/-- Read `cnt` slots of a buffer starting at `start` (`memcpy`/`memmove`
source segment); reading past the end of the buffer yields a shorter list. -/
def buf_read (src : List Nat) (start cnt : Nat) : List Nat :=
  (src.drop start).take cnt

/-- Overwrite the slots of `dst` starting at `start` with `src`
(`memcpy`/`memmove` destination); writes past the end of the buffer are
dropped, the buffer length never changes. -/
def buf_write (dst : List Nat) (start : Nat) (src : List Nat) : List Nat :=
  (dst.take start ++ src ++ dst.drop (start + src.length)).take dst.length

/-- The logical contents of a container: the stored values at indices
`[0, cardinality)`. -/
def elems (c : array_container_t) : List Nat :=
  c.array.take c.cardinality

/-- Structural well-formedness: the buffer has exactly `capacity` slots and
`cardinality <= capacity`. -/
def wfc (c : array_container_t) : Prop :=
  c.array.length = c.capacity ∧ c.cardinality ≤ c.capacity

/-- Invariant I1 of the data model together with well-formedness: the stored
values at indices `[0, cardinality)` are strictly increasing. -/
def Inv (c : array_container_t) : Prop :=
  wfc c ∧ List.Sorted (· < ·) (elems c)

/-- `array_container_create_given_capacity` (allocation failure is not
modelled; fresh slots hold the junk value 0). -/
def array_container_create_given_capacity (size : Nat) : array_container_t :=
  { capacity := size, cardinality := 0, array := List.replicate size 0 }

/-- `array_container_create`. -/
def array_container_create : array_container_t :=
  array_container_create_given_capacity DEFAULT_INIT_SIZE

/-- `array_container_clone`. -/
def array_container_clone (src : array_container_t) : array_container_t :=
  let n := array_container_create_given_capacity src.capacity
  { n with cardinality := src.cardinality,
           array := buf_write n.array 0 (buf_read src.array 0 src.cardinality) }

/-- Modelled from the spec: the extern introspection `array_container_full`
(declared in array.c, defined elsewhere): fullness check,
`cardinality == capacity` (spec section 6). -/
def array_container_full (arr : array_container_t) : Bool :=
  arr.cardinality == arr.capacity

/-- Modelled from the spec: the extern introspection `array_container_empty`
(declared in array.c, defined elsewhere): emptiness check (spec section 6). -/
def array_container_empty (arr : array_container_t) : Bool :=
  arr.cardinality == 0

/-- `grow_capacity`: 16 for empty capacity, double below 64, times 3/2 below
1024, times 5/4 otherwise (C integer division of non-negative operands). -/
def grow_capacity (capacity : Nat) : Nat :=
  if capacity ≤ 0 then DEFAULT_INIT_SIZE
  else if capacity < 64 then capacity * 2
  else if capacity < 1024 then capacity * 3 / 2
  else capacity * 5 / 4

/-- `clamp`. -/
def clamp (val mn mx : Nat) : Nat :=
  if val < mn then mn else if val > mx then mx else val

/-- `array_container_grow`: capacity becomes the clamped growth candidate,
snapped to `mx` when within one sixteenth of `mx`; `realloc` keeps the common
prefix of the buffer when `preserve`, otherwise fresh junk. -/
def array_container_grow (container : array_container_t) (mn mx : Nat)
    (preserve : Bool) : array_container_t :=
  let cand := clamp (grow_capacity container.capacity) mn mx
  let new_capacity := if cand > mx - mx / 16 then mx else cand
  { capacity := new_capacity,
    cardinality := container.cardinality,
    array :=
      if preserve then
        container.array.take new_capacity ++
          List.replicate (new_capacity - container.array.length) 0
      else
        List.replicate new_capacity 0 }

/-- `array_container_copy` exactly as written in the source: note the
condition `cardinality < dst->capacity` guarding the growth call. -/
def array_container_copy (src dst : array_container_t) : array_container_t :=
  let cardinality := src.cardinality
  let dst1 :=
    if cardinality < dst.capacity then
      array_container_grow dst cardinality INT32_MAX false
    else dst
  { dst1 with cardinality := cardinality,
              array := buf_write dst1.array 0 (buf_read src.array 0 cardinality) }

/-- `array_container_append`. -/
def array_container_append (arr : array_container_t) (pos : Nat) :
    array_container_t :=
  let capacity := arr.capacity
  let arr1 :=
    if array_container_full arr then
      array_container_grow arr (capacity + 1) INT32_MAX true
    else arr
  { arr1 with array := arr1.array.set arr1.cardinality pos,
              cardinality := arr1.cardinality + 1 }

/-- Modelled from the spec: the sorted-sequence search collaborator
`binarySearch` (declared in array_util.h, not part of this file). Contract
(spec section 4.3): over the first `length` entries it returns a non-negative
index on a hit, or a negative encoding of the insertion point on a miss such
that `insertion_index = -(result) - 1`; for a sorted sequence the index of a
hit and the insertion point both equal the number of entries below the
target. -/
def binarySearch (arr : List Nat) (length : Nat) (target : Nat) : Int :=
  let pre := arr.take length
  let ip : Nat := pre.countP (fun y => decide (y < target))
  if target ∈ pre then (ip : Int) else -(ip : Int) - 1

/-- `array_container_add`; returns the updated container and the boolean
result. -/
def array_container_add (arr : array_container_t) (pos : Nat) :
    array_container_t × Bool :=
  let cardinality := arr.cardinality
  if array_container_empty arr || decide (arr.array.getD (cardinality - 1) 0 < pos) then
    (array_container_append arr pos, true)
  else
    let loc := binarySearch arr.array cardinality pos
    if loc < 0 then
      let arr1 :=
        if array_container_full arr then
          array_container_grow arr (arr.capacity + 1) INT32_MAX true
        else arr
      let insert_idx := (-loc - 1).toNat
      let moved := buf_write arr1.array (insert_idx + 1)
        (buf_read arr1.array insert_idx (cardinality - insert_idx))
      ({ capacity := arr1.capacity, cardinality := cardinality + 1,
         array := moved.set insert_idx pos }, true)
    else
      (arr, false)

/-- `array_container_remove`; returns the updated container and the boolean
result.  The `memmove` count is the source's `cardinality - idx` (one slot
more than the logical tail). -/
def array_container_remove (arr : array_container_t) (pos : Nat) :
    array_container_t × Bool :=
  let idx := binarySearch arr.array arr.cardinality pos
  if idx ≥ 0 then
    let i := idx.toNat
    ({ arr with array := buf_write arr.array i
                  (buf_read arr.array (i + 1) (arr.cardinality - i)),
                cardinality := arr.cardinality - 1 }, true)
  else
    (arr, false)

/-- `array_container_contains`. -/
def array_container_contains (arr : array_container_t) (pos : Nat) : Bool :=
  decide (binarySearch arr.array arr.cardinality pos ≥ 0)

/-- Modelled from the spec: the merge collaborator `union_uint16`
(array_util, not part of this file): merges two sorted sequences eliminating
duplicates, producing the result in ascending order (spec section 4.4); here
it returns the produced sequence, whose length is the count the C routine
returns. -/
def union_uint16 : List Nat → List Nat → List Nat
  | [], b => b
  | a, [] => a
  | x :: xs, y :: ys =>
    if x < y then x :: union_uint16 xs (y :: ys)
    else if y < x then y :: union_uint16 (x :: xs) ys
    else x :: union_uint16 xs ys

/-- `array_container_union`: grow `out` (not preserving) when its capacity is
below `|a| + |b|`, then merge with the smaller array first. -/
def array_container_union (array_1 array_2 out : array_container_t) :
    array_container_t :=
  let card_1 := array_1.cardinality
  let card_2 := array_2.cardinality
  let max_cardinality := card_1 + card_2
  let out1 :=
    if out.capacity < max_cardinality then
      array_container_grow out max_cardinality INT32_MAX false
    else out
  let res :=
    if card_1 < card_2 then
      union_uint16 (buf_read array_1.array 0 card_1) (buf_read array_2.array 0 card_2)
    else
      union_uint16 (buf_read array_2.array 0 card_2) (buf_read array_1.array 0 card_1)
  { out1 with cardinality := res.length, array := buf_write out1.array 0 res }

/-- `minimum`. -/
def minimum (a b : Nat) : Nat := if a < b then a else b

/-- Modelled from the spec: the balanced merge collaborator `intersect_uint16`
(array_util, not part of this file): linear two-pointer merge of two sorted
sequences emitting the common values in ascending order (spec section 4.4). -/
def intersect_uint16 : List Nat → List Nat → List Nat
  | [], _ => []
  | _ :: _, [] => []
  | x :: xs, y :: ys =>
    if x < y then intersect_uint16 xs (y :: ys)
    else if y < x then intersect_uint16 (x :: xs) ys
    else x :: intersect_uint16 xs ys

/-- Modelled from the spec: the skewed/galloping collaborator
`intersect_skewed_uint16` (array_util, not part of this file): each element of
the smaller (first) sequence is searched inside the larger (second) one and
emitted when found, in the order of the smaller sequence (spec sections 4.4
and glossary). -/
def intersect_skewed_uint16 (small large : List Nat) : List Nat :=
  small.filter (fun x => decide (x ∈ large))

/-- `array_container_intersection`: grow `out` (not preserving) when its
capacity is below `min(|a|,|b|)`; pick the skewed path when one cardinality
exceeds 64 times the other, else the balanced merge (the scalar branch; the
AVX branch is compiled out). -/
def array_container_intersection (array1 array2 out : array_container_t) :
    array_container_t :=
  let card_1 := array1.cardinality
  let card_2 := array2.cardinality
  let min_card := minimum card_1 card_2
  let threshold := 64
  let out1 :=
    if out.capacity < min_card then
      array_container_grow out min_card INT32_MAX false
    else out
  let res :=
    if card_1 * threshold < card_2 then
      intersect_skewed_uint16 (buf_read array1.array 0 card_1)
        (buf_read array2.array 0 card_2)
    else if card_2 * threshold < card_1 then
      intersect_skewed_uint16 (buf_read array2.array 0 card_2)
        (buf_read array1.array 0 card_1)
    else
      intersect_uint16 (buf_read array1.array 0 card_1)
        (buf_read array2.array 0 card_2)
  { out1 with cardinality := res.length, array := buf_write out1.array 0 res }

/-- Loop state of `array_container_intersection_inplace`: the evolving buffer
of `src_1` and the three cursors `card` (write), `read1_pos`, `read2_pos`. -/
structure ii_state where
  arr : List Nat
  card : Nat
  read1_pos : Nat
  read2_pos : Nat
deriving Repr, DecidableEq

/-- One iteration of the in-place intersection loop (identity once a cursor
is exhausted). -/
def ii_step (src2 : List Nat) (card1 card2 : Nat) (s : ii_state) : ii_state :=
  if s.read1_pos < card1 ∧ s.read2_pos < card2 then
    let v1 := s.arr.getD s.read1_pos 0
    let v2 := src2.getD s.read2_pos 0
    if v1 < v2 then { s with read1_pos := s.read1_pos + 1 }
    else if v1 > v2 then { s with read2_pos := s.read2_pos + 1 }
    else { arr := s.arr.set s.card v1, card := s.card + 1,
           read1_pos := s.read1_pos + 1, read2_pos := s.read2_pos + 1 }
  else s

/-- Run `n` iterations of the in-place intersection loop. -/
def ii_run (src2 : List Nat) (card1 card2 : Nat) : Nat → ii_state → ii_state
  | 0, s => s
  | n + 1, s => ii_run src2 card1 card2 n (ii_step src2 card1 card2 s)

/-- `array_container_intersection_inplace`: run the two-pointer loop over
`src_1`'s own buffer (the loop makes at most `card1 + card2` iterations), then
store the write cursor as the new cardinality.  The one-time diagnostic print
has no effect on the data and is not modelled. -/
def array_container_intersection_inplace (src_1 src_2 : array_container_t) :
    array_container_t :=
  let s := ii_run src_2.array src_1.cardinality src_2.cardinality
    (src_1.cardinality + src_2.cardinality)
    { arr := src_1.array, card := 0, read1_pos := 0, read2_pos := 0 }
  { src_1 with array := s.arr, cardinality := s.card }

/-- A reachable container holding {1,2,3}: three ascending adds on a fresh
default container. -/
def exSrc : array_container_t :=
  (array_container_add
    (array_container_add (array_container_add array_container_create 1).1 2).1
    3).1

/-- A reachable container of capacity 2: `create_given_capacity 2`. -/
def exDst : array_container_t := array_container_create_given_capacity 2

/-- Concrete container {1,3,5} with one slack slot, used by witnesses. -/
def exA : array_container_t :=
  { capacity := 4, cardinality := 3, array := [1, 3, 5, 0] }

/-- Concrete container {3,4,5}, used by witnesses. -/
def exB : array_container_t :=
  { capacity := 3, cardinality := 3, array := [3, 4, 5] }

/-- Concrete empty output container of capacity 8, used by witnesses. -/
def exOut : array_container_t :=
  { capacity := 8, cardinality := 0, array := List.replicate 8 0 }

instance (c : array_container_t) : Decidable (wfc c) := by
  unfold wfc; infer_instance

instance (c : array_container_t) : Decidable (Inv c) := by
  unfold Inv wfc; infer_instance

/-- Claimed behaviour of `array_container_grow` (claim C9). -/
def grow_post (c : array_container_t) (mn mx : Nat) (preserve : Bool) : Prop :=
  (array_container_grow c mn mx preserve).capacity =
    (if clamp (grow_capacity c.capacity) mn mx > mx - mx / 16 then mx
     else clamp (grow_capacity c.capacity) mn mx) ∧
  mn ≤ (array_container_grow c mn mx preserve).capacity ∧
  (array_container_grow c mn mx preserve).capacity ≤ mx ∧
  (array_container_grow c mn mx preserve).cardinality = c.cardinality ∧
  grow_capacity 0 = DEFAULT_INIT_SIZE ∧
  (∀ k, 0 < k → k < 64 → grow_capacity k = k * 2) ∧
  (∀ k, 64 ≤ k → k < 1024 → grow_capacity k = k * 3 / 2) ∧
  (∀ k, 1024 ≤ k → grow_capacity k = k * 5 / 4)

/-- Claimed behaviour of `array_container_remove` (claim C3). -/
def remove_post (arr : array_container_t) (x : Nat) : Prop :=
  (x ∈ elems arr →
    (array_container_remove arr x).2 = true ∧
    (array_container_remove arr x).1.cardinality + 1 = arr.cardinality ∧
    elems (array_container_remove arr x).1 =
      (elems arr).take (binarySearch arr.array arr.cardinality x).toNat ++
        (elems arr).drop ((binarySearch arr.array arr.cardinality x).toNat + 1) ∧
    array_container_contains (array_container_remove arr x).1 x = false) ∧
  (x ∉ elems arr →
    (array_container_remove arr x).2 = false ∧
    (array_container_remove arr x).1 = arr)

/-- Claimed behaviour of `array_container_add` (claim C4). -/
def add_post (arr : array_container_t) (x : Nat) : Prop :=
  ((array_container_add arr x).2 = true ↔ x ∉ elems arr) ∧
  array_container_contains (array_container_add arr x).1 x = true ∧
  (x ∈ elems arr → (array_container_add arr x).1 = arr) ∧
  (array_container_add (array_container_add arr x).1 x).2 = false ∧
  (array_container_add (array_container_add arr x).1 x).1 =
    (array_container_add arr x).1

/-- Claimed behaviour of `array_container_union` (claim C5). -/
def union_post (a b out : array_container_t) : Prop :=
  (out.capacity < a.cardinality + b.cardinality →
    (array_container_union a b out).capacity =
      (array_container_grow out (a.cardinality + b.cardinality) INT32_MAX
        false).capacity) ∧
  List.Sorted (· < ·) (elems (array_container_union a b out)) ∧
  (∀ x, x ∈ elems (array_container_union a b out) ↔
    x ∈ elems a ∨ x ∈ elems b) ∧
  (array_container_union a b out).cardinality =
    (elems (array_container_union a b out)).length ∧
  (array_container_union a b out).cardinality =
    ((elems a).toFinset ∪ (elems b).toFinset).card

/-- Claimed behaviour of `array_container_intersection` (claim C6). -/
def intersection_post (a b out : array_container_t) : Prop :=
  (out.capacity < minimum a.cardinality b.cardinality →
    (array_container_intersection a b out).capacity =
      (array_container_grow out (minimum a.cardinality b.cardinality) INT32_MAX
        false).capacity) ∧
  List.Sorted (· < ·) (elems (array_container_intersection a b out)) ∧
  (∀ x, x ∈ elems (array_container_intersection a b out) ↔
    x ∈ elems a ∧ x ∈ elems b) ∧
  (array_container_intersection a b out).cardinality =
    (elems (array_container_intersection a b out)).length ∧
  ((a.cardinality * 64 < b.cardinality ∨ b.cardinality * 64 < a.cardinality) ↔
    64 * minimum a.cardinality b.cardinality <
      max a.cardinality b.cardinality)

/-- Claimed agreement of the two intersection strategies (claim C7): the
skewed path in either orientation produces the very sequence the balanced
linear merge produces. -/
def paths_agree_post (a b : array_container_t) : Prop :=
  intersect_skewed_uint16 (elems a) (elems b) =
    intersect_uint16 (elems a) (elems b) ∧
  intersect_skewed_uint16 (elems b) (elems a) =
    intersect_uint16 (elems a) (elems b) ∧
  (intersect_skewed_uint16 (elems a) (elems b)).length =
    (intersect_uint16 (elems a) (elems b)).length

/-- Claimed behaviour of `array_container_intersection_inplace` (claim C8). -/
def inplace_post (a b : array_container_t) : Prop :=
  (array_container_intersection_inplace a b).capacity = a.capacity ∧
  (array_container_intersection_inplace a b).array.length = a.array.length ∧
  List.Sorted (· < ·) (elems (array_container_intersection_inplace a b)) ∧
  (∀ x, x ∈ elems (array_container_intersection_inplace a b) ↔
    x ∈ elems a ∧ x ∈ elems b) ∧
  (array_container_intersection_inplace a b).cardinality =
    (elems (array_container_intersection_inplace a b)).length ∧
  elems (array_container_intersection_inplace a b) =
    intersect_uint16 (elems a) (elems b) ∧
  (∀ n, (ii_run b.array a.cardinality b.cardinality n
      { arr := a.array, card := 0, read1_pos := 0, read2_pos := 0 }).card ≤
    (ii_run b.array a.cardinality b.cardinality n
      { arr := a.array, card := 0, read1_pos := 0, read2_pos := 0 }).read1_pos)

/-- Claimed frame conditions of union and intersection on an output container
whose capacity already suffices (claim C10). -/
def frame_post (a b out : array_container_t) : Prop :=
  (a.cardinality + b.cardinality ≤ out.capacity →
    (array_container_union a b out).capacity = out.capacity ∧
    (array_container_union a b out).array.length = out.array.length ∧
    (array_container_union a b out).array.drop
        (array_container_union a b out).cardinality =
      out.array.drop (array_container_union a b out).cardinality) ∧
  (minimum a.cardinality b.cardinality ≤ out.capacity →
    (array_container_intersection a b out).capacity = out.capacity ∧
    (array_container_intersection a b out).array.length = out.array.length ∧
    (array_container_intersection a b out).array.drop
        (array_container_intersection a b out).cardinality =
      out.array.drop (array_container_intersection a b out).cardinality)

theorem length_buf_write (dst : List Nat) (start : Nat) (src : List Nat) :
    (buf_write dst start src).length = dst.length := by
  unfold buf_write
  simp only [List.length_take, List.length_append, List.length_drop]
  omega

theorem buf_write_zero (dst src : List Nat) (h : src.length ≤ dst.length) :
    buf_write dst 0 src = src ++ dst.drop src.length := by
  unfold buf_write
  have h' : (src ++ dst.drop src.length).length ≤ dst.length := by
    simp only [List.length_append, List.length_drop]; omega
  rw [List.take_zero, List.nil_append, Nat.zero_add]
  exact List.take_of_length_le h'

theorem grow_capacity_le (n : Nat) : n ≤ grow_capacity n := by
  unfold grow_capacity DEFAULT_INIT_SIZE
  split_ifs <;> omega

theorem clamp_bounds (v mn mx : Nat) (h : mn ≤ mx) :
    mn ≤ clamp v mn mx ∧ clamp v mn mx ≤ mx := by
  unfold clamp; split_ifs <;> omega

theorem grow_fields (c : array_container_t) (mn mx : Nat) (p : Bool) :
    (array_container_grow c mn mx p).capacity =
      (if clamp (grow_capacity c.capacity) mn mx > mx - mx / 16 then mx
       else clamp (grow_capacity c.capacity) mn mx) ∧
    (array_container_grow c mn mx p).cardinality = c.cardinality := by
  constructor <;> rfl

theorem grow_capacity_bounds (c : array_container_t) (mn mx : Nat) (p : Bool)
    (h : mn ≤ mx) :
    mn ≤ (array_container_grow c mn mx p).capacity ∧
    (array_container_grow c mn mx p).capacity ≤ mx := by
  rw [(grow_fields c mn mx p).1]
  have hb := clamp_bounds (grow_capacity c.capacity) mn mx h
  split_ifs <;> omega

theorem grow_array_true (c : array_container_t) (mn mx : Nat) :
    (array_container_grow c mn mx true).array =
      c.array.take (array_container_grow c mn mx true).capacity ++
        List.replicate
          ((array_container_grow c mn mx true).capacity - c.array.length) 0 :=
  rfl

theorem grow_array_false (c : array_container_t) (mn mx : Nat) :
    (array_container_grow c mn mx false).array =
      List.replicate (array_container_grow c mn mx false).capacity 0 :=
  rfl

theorem grow_length (c : array_container_t) (mn mx : Nat) (p : Bool) :
    (array_container_grow c mn mx p).array.length =
      (array_container_grow c mn mx p).capacity := by
  cases p
  · rw [grow_array_false]
    exact List.length_replicate _ _
  · rw [grow_array_true]
    simp only [List.length_append, List.length_take, List.length_replicate]
    omega

theorem grow_take (c : array_container_t) (mn mx : Nat) (k : Nat)
    (hk1 : k ≤ (array_container_grow c mn mx true).capacity)
    (hk2 : k ≤ c.array.length) :
    (array_container_grow c mn mx true).array.take k = c.array.take k := by
  rw [grow_array_true]
  rw [List.take_append_of_le_length, List.take_take]
  · congr 1
    omega
  · simp only [List.length_take]
    omega

/-- C9: `grow(c, min, max, preserve)` sets the capacity to the clamped growth
candidate, snapped to exactly `max` when the candidate is within one sixteenth
of `max`; `grow_capacity` returns 16 for an empty capacity, doubles below 64,
multiplies by 3/2 below 1024 and by 5/4 above; afterwards
`min <= capacity <= max` and the cardinality is untouched. -/
theorem array_container_grow_spec (c : array_container_t) (mn mx : Nat)
    (preserve : Bool) (h : mn ≤ mx) : grow_post c mn mx preserve := by
  unfold grow_post
  refine ⟨(grow_fields c mn mx preserve).1,
    (grow_capacity_bounds c mn mx preserve h).1,
    (grow_capacity_bounds c mn mx preserve h).2,
    (grow_fields c mn mx preserve).2, rfl, ?_, ?_, ?_⟩ <;>
    intro k <;> intros <;> unfold grow_capacity DEFAULT_INIT_SIZE <;>
    split_ifs <;> omega

/-- Witness for C9 at container {1,3,5} (capacity 4), bounds 5 and 100. -/
theorem array_container_grow_spec_witness :
    5 ≤ 100 ∧ grow_post exA 5 100 true :=
  ⟨by decide, array_container_grow_spec exA 5 100 true (by decide)⟩

/-- C1: the claim says `copy(src, dst)` grows `dst` when its capacity cannot
hold `src.cardinality` values and afterwards the first `src.cardinality`
stored values of `dst` equal those of `src`.  The source's growth guard is
`cardinality < dst->capacity`, the reverse of the insufficiency test, so at
`src` = {1,2,3} and a destination of capacity 2 (both built by public
operations) no growth happens, the `memcpy` overruns the two-slot buffer, and
the destination cannot hold the three values. -/
theorem copy_insufficient_capacity_bug :
    exSrc.cardinality = 3 ∧
    exDst.capacity = 2 ∧
    (array_container_copy exSrc exDst).capacity = 2 ∧
    (array_container_copy exSrc exDst).cardinality = 3 ∧
    (array_container_copy exSrc exDst).array = [1, 2] ∧
    (array_container_copy exSrc exDst).array.take 3 ≠ (elems exSrc).take 3 := by
  decide

/-- C2: the claim says every container reachable through the public
operations keeps the values at indices `[0, cardinality)` strictly
increasing.  After `copy` of the reachable container {1,2,3} into the
reachable capacity-2 container, the destination has cardinality 3 but only 2
buffer slots (the C code overran the heap), so the invariant (which includes
those indices being backed by stored values) is violated. -/
theorem invariant_broken_by_copy_bug :
    Inv exSrc ∧ Inv exDst ∧
    ¬ (array_container_copy exSrc exDst).cardinality ≤
        (array_container_copy exSrc exDst).capacity ∧
    ¬ Inv (array_container_copy exSrc exDst) := by
  decide

end CRoaring

namespace CRoaring

theorem length_elems (c : array_container_t) (h : c.cardinality ≤ c.array.length) :
    (elems c).length = c.cardinality := by
  unfold elems
  simp only [List.length_take]
  omega

theorem sorted_countP_split (x : Nat) :
    ∀ l : List Nat, List.Sorted (· < ·) l →
      (∀ y ∈ l.take (l.countP (fun y => decide (y < x))), y < x) ∧
      (∀ y ∈ l.drop (l.countP (fun y => decide (y < x))), ¬ y < x) ∧
      (x ∈ l →
        l.drop (l.countP (fun y => decide (y < x))) =
          x :: l.drop (l.countP (fun y => decide (y < x)) + 1)) := by
  intro l
  induction l with
  | nil =>
    intro _
    refine ⟨?_, ?_, ?_⟩ <;> simp
  | cons a t ih =>
    intro hs
    rw [List.sorted_cons] at hs
    obtain ⟨ha, ht⟩ := hs
    by_cases hax : a < x
    · have hc : (a :: t).countP (fun y => decide (y < x)) =
        t.countP (fun y => decide (y < x)) + 1 := by
        rw [List.countP_cons]
        simp [hax]
      obtain ⟨ih1, ih2, ih3⟩ := ih ht
      rw [hc]
      refine ⟨?_, ?_, ?_⟩
      · intro y hy
        rw [List.take_succ_cons] at hy
        rcases List.mem_cons.mp hy with h | h
        · omega
        · exact ih1 y h
      · intro y hy
        rw [List.drop_succ_cons] at hy
        exact ih2 y hy
      · intro hx
        have hx' : x ∈ t := by
          rcases List.mem_cons.mp hx with h | h
          · omega
          · exact h
        rw [List.drop_succ_cons, List.drop_succ_cons]
        exact ih3 hx'
    · have hc : (a :: t).countP (fun y => decide (y < x)) = 0 := by
        rw [List.countP_eq_zero]
        intro b hb
        simp only [decide_eq_true_eq]
        rcases List.mem_cons.mp hb with h | h
        · omega
        · have := ha b h
          omega
      rw [hc]
      refine ⟨?_, ?_, ?_⟩
      · intro y hy
        simp at hy
      · intro y hy
        rw [List.drop_zero] at hy
        rcases List.mem_cons.mp hy with h | h
        · omega
        · have := ha y h
          omega
      · intro hx
        have hxa : x = a := by
          rcases List.mem_cons.mp hx with h | h
          · exact h
          · have := ha x h
            omega
        rw [List.drop_zero]
        rw [show (0 + 1 : Nat) = 1 from rfl, List.drop_one, List.tail_cons, hxa]

theorem binarySearch_nonneg_iff (arr : List Nat) (n : Nat) (x : Nat) :
    0 ≤ binarySearch arr n x ↔ x ∈ arr.take n := by
  unfold binarySearch
  dsimp only
  split_ifs with h
  · simp [h]
  · simp only [h, iff_false]
    intro hcon
    omega

theorem contains_iff (arr : array_container_t) (x : Nat) :
    array_container_contains arr x = true ↔ x ∈ elems arr := by
  unfold array_container_contains elems
  rw [decide_eq_true_iff, ge_iff_le]
  exact binarySearch_nonneg_iff arr.array arr.cardinality x

theorem contains_false_iff (arr : array_container_t) (x : Nat) :
    array_container_contains arr x = false ↔ x ∉ elems arr := by
  rw [← contains_iff]
  cases array_container_contains arr x <;> simp

theorem binarySearch_found (arr : List Nat) (n x : Nat) (h : x ∈ arr.take n) :
    binarySearch arr n x =
      ((arr.take n).countP (fun y => decide (y < x)) : Int) := by
  unfold binarySearch
  dsimp only
  rw [if_pos h]

theorem binarySearch_notfound (arr : List Nat) (n x : Nat) (h : x ∉ arr.take n) :
    binarySearch arr n x =
      -(((arr.take n).countP (fun y => decide (y < x)) : Int)) - 1 := by
  unfold binarySearch
  dsimp only
  rw [if_neg h]

theorem countP_lt_length_of_mem (l : List Nat) (x : Nat)
    (hs : List.Sorted (· < ·) l) (h : x ∈ l) :
    l.countP (fun y => decide (y < x)) < l.length := by
  have h3 := (sorted_countP_split x l hs).2.2 h
  by_contra hcon
  have : l.drop (l.countP (fun y => decide (y < x))) = [] :=
    List.drop_eq_nil_of_le (by omega)
  rw [this] at h3
  exact List.noConfusion h3

end CRoaring
namespace CRoaring

theorem remove_eq_found (arr : array_container_t) (x : Nat)
    (hcond : binarySearch arr.array arr.cardinality x ≥ 0) :
    array_container_remove arr x =
      ({ arr with
         array := buf_write arr.array
           (binarySearch arr.array arr.cardinality x).toNat
           (buf_read arr.array
             ((binarySearch arr.array arr.cardinality x).toNat + 1)
             (arr.cardinality -
               (binarySearch arr.array arr.cardinality x).toNat)),
         cardinality := arr.cardinality - 1 }, true) := by
  unfold array_container_remove
  dsimp only
  rw [if_pos hcond]

theorem remove_eq_notfound (arr : array_container_t) (x : Nat)
    (hcond : ¬ binarySearch arr.array arr.cardinality x ≥ 0) :
    array_container_remove arr x = (arr, false) := by
  unfold array_container_remove
  dsimp only
  rw [if_neg hcond]

theorem remove_prefix_eq (dst : List Nat) (card ip : Nat)
    (hip : ip < card) (hcard : card ≤ dst.length) :
    (buf_write dst ip ((dst.drop (ip + 1)).take (card - ip))).take (card - 1) =
      (dst.take card).take ip ++ (dst.take card).drop (ip + 1) := by
  have hseglen : ((dst.drop (ip + 1)).take (card - ip)).length =
      (card - ip) ⊓ (dst.length - (ip + 1)) := by
    simp only [List.length_take, List.length_drop]
  unfold buf_write
  rw [List.append_assoc]
  rw [List.take_take]
  have h1 : (card - 1) ⊓ dst.length = card - 1 := by omega
  rw [h1]
  rw [List.take_append_eq_append_take]
  rw [List.take_take]
  have h2 : (card - 1) ⊓ ip = ip := by omega
  rw [h2]
  rw [List.take_append_eq_append_take]
  have hl : (List.take ip dst).length = ip := by
    simp only [List.length_take]; omega
  rw [hl]
  rw [List.take_take]
  have h3 : (card - 1 - ip) ⊓ (card - ip) = card - 1 - ip := by omega
  rw [h3]
  have h4 : card - 1 - ip -
      (List.take (card - ip) (List.drop (ip + 1) dst)).length = 0 := by
    rw [hseglen]; omega
  rw [h4, List.take_zero, List.append_nil]
  rw [List.take_take]
  have h5 : ip ⊓ card = ip := by omega
  rw [h5]
  rw [List.drop_take]
  have h6 : card - (ip + 1) = card - 1 - ip := by omega
  rw [h6]

theorem length_buf_read_le (src : List Nat) (start cnt : Nat) :
    (buf_read src start cnt).length ≤ cnt := by
  unfold buf_read
  simp only [List.length_take, List.length_drop]
  omega

/-- C3: `remove(c, x)` with `x` present returns true, lowers the cardinality
by exactly one, shifts the entries after `x`'s slot one position left, and
afterwards `contains(c, x)` is false; with `x` absent it returns false and
leaves the container unchanged. -/
theorem array_container_remove_spec (arr : array_container_t) (x : Nat)
    (h : Inv arr) : remove_post arr x := by
  obtain ⟨⟨hlen, hcardcap⟩, hs⟩ := h
  have hcardlen : arr.cardinality ≤ arr.array.length := by omega
  unfold remove_post
  constructor
  · intro hx
    have hxt : x ∈ arr.array.take arr.cardinality := hx
    have hfound := binarySearch_found arr.array arr.cardinality x hxt
    have hiplt : (elems arr).countP (fun y => decide (y < x)) <
        (elems arr).length := countP_lt_length_of_mem _ x hs hx
    have hellen : (elems arr).length = arr.cardinality := length_elems arr hcardlen
    have hcond : binarySearch arr.array arr.cardinality x ≥ 0 := by
      rw [ge_iff_le, binarySearch_nonneg_iff]
      exact hxt
    have htoNat : (binarySearch arr.array arr.cardinality x).toNat =
        (elems arr).countP (fun y => decide (y < x)) := by
      rw [hfound]
      exact Int.toNat_natCast _
    rw [remove_eq_found arr x hcond]
    set ip := (elems arr).countP (fun y => decide (y < x)) with hipdef
    have hipcard : ip < arr.cardinality := by omega
    have hcard1 : 1 ≤ arr.cardinality := by omega
    refine ⟨rfl, by dsimp only; omega, ?_, ?_⟩
    · show (buf_write arr.array _ (buf_read arr.array _ _)).take
        (arr.cardinality - 1) = _
      rw [htoNat]
      unfold buf_read
      exact remove_prefix_eq arr.array arr.cardinality ip hipcard hcardlen
    · rw [contains_false_iff]
      show ¬ x ∈ (buf_write arr.array _ _).take (arr.cardinality - 1)
      rw [htoNat]
      unfold buf_read
      rw [remove_prefix_eq arr.array arr.cardinality ip hipcard hcardlen]
      obtain ⟨hsp1, hsp2, hsp3⟩ := sorted_countP_split x (elems arr) hs
      have hdropeq := hsp3 hx
      intro hmem
      rcases List.mem_append.mp hmem with hmem1 | hmem2
      · have := hsp1 x hmem1
        omega
      · have hsd : List.Sorted (· < ·) ((elems arr).drop ip) :=
          List.Pairwise.sublist (List.drop_sublist _ _) hs
        rw [hdropeq, List.sorted_cons] at hsd
        have := hsd.1 x hmem2
        omega
  · intro hx
    have hxt : x ∉ arr.array.take arr.cardinality := hx
    have hnotfound := binarySearch_notfound arr.array arr.cardinality x hxt
    have hcond : ¬ binarySearch arr.array arr.cardinality x ≥ 0 := by
      rw [hnotfound]
      omega
    rw [remove_eq_notfound arr x hcond]
    exact ⟨rfl, rfl⟩

/-- Witness for C3 at the container {1,3,5} and the present value 3. -/
theorem array_container_remove_spec_witness :
    Inv exA ∧ remove_post exA 3 :=
  ⟨by decide, array_container_remove_spec exA 3 (by decide)⟩

end CRoaring
namespace CRoaring

theorem elem_le_last (arr : array_container_t) (y : Nat)
    (hcardlen : arr.cardinality ≤ arr.array.length)
    (hs : List.Sorted (· < ·) (elems arr)) (hy : y ∈ elems arr) :
    y ≤ arr.array.getD (arr.cardinality - 1) 0 := by
  have hellen : (elems arr).length = arr.cardinality := length_elems arr hcardlen
  have hpos : 1 ≤ arr.cardinality := by
    rcases List.length_pos.mpr (List.ne_nil_of_mem hy) with h
    omega
  obtain ⟨⟨i, hi⟩, hget⟩ := List.mem_iff_get.mp hy
  have hb : arr.cardinality - 1 < (elems arr).length := by omega
  have hb2 : arr.cardinality - 1 < arr.array.length := by omega
  have hlast : arr.array.getD (arr.cardinality - 1) 0 =
      (elems arr).get ⟨arr.cardinality - 1, hb⟩ := by
    rw [List.getD_eq_getElem arr.array 0 hb2, List.get_eq_getElem]
    exact (List.getElem_take arr.array).symm
  rw [hlast, ← hget]
  rcases Nat.lt_or_ge i (arr.cardinality - 1) with hlt | hge
  · exact le_of_lt (hs.rel_get_of_lt (by simpa using hlt))
  · have : i = arr.cardinality - 1 := by omega
    subst this
    rfl

theorem append_elems (arr : array_container_t) (x : Nat) (h : Inv arr)
    (hcap : arr.capacity < INT32_MAX) :
    elems (array_container_append arr x) = elems arr ++ [x] ∧
    (array_container_append arr x).cardinality = arr.cardinality + 1 ∧
    wfc (array_container_append arr x) := by
  obtain ⟨⟨hlen, hcard⟩, _⟩ := h
  set arr1 := if array_container_full arr then
      array_container_grow arr (arr.capacity + 1) INT32_MAX true
    else arr with harr1
  have harr1len : arr1.array.length = arr1.capacity := by
    rw [harr1]; split_ifs with hf
    · exact grow_length arr (arr.capacity + 1) INT32_MAX true
    · exact hlen
  have harr1card : arr1.cardinality = arr.cardinality := by
    rw [harr1]; split_ifs with hf
    · exact (grow_fields arr (arr.capacity + 1) INT32_MAX true).2
    · rfl
  have hcardlt : arr.cardinality < arr1.capacity := by
    rw [harr1]; split_ifs with hf
    · have := (grow_capacity_bounds arr (arr.capacity + 1) INT32_MAX true
        (by unfold INT32_MAX at hcap ⊢; omega)).1
      omega
    · unfold array_container_full at hf
      simp only [beq_iff_eq] at hf
      omega
  have htake : arr1.array.take arr.cardinality = arr.array.take arr.cardinality := by
    rw [harr1]; split_ifs with hf
    · exact grow_take arr (arr.capacity + 1) INT32_MAX arr.cardinality
        (by
          have := (grow_capacity_bounds arr (arr.capacity + 1) INT32_MAX true
            (by unfold INT32_MAX at hcap ⊢; omega)).1
          omega)
        (by omega)
    · rfl
  have hres : array_container_append arr x =
      { arr1 with array := arr1.array.set arr1.cardinality x,
                  cardinality := arr1.cardinality + 1 } := rfl
  rw [hres]
  have hsetlt : arr.cardinality < arr1.array.length := by omega
  refine ⟨?_, by dsimp only; omega, ?_, ?_⟩
  · show (arr1.array.set arr1.cardinality x).take (arr1.cardinality + 1) = _
    rw [harr1card]
    rw [List.set_eq_take_cons_drop x hsetlt]
    rw [List.take_append_eq_append_take]
    have h1 : (arr1.array.take arr.cardinality).length = arr.cardinality := by
      simp only [List.length_take]; omega
    rw [h1]
    have h2 : arr.cardinality + 1 - arr.cardinality = 1 := by omega
    have h3 : (arr1.array.take arr.cardinality).take (arr.cardinality + 1) =
        arr1.array.take arr.cardinality :=
      List.take_of_length_le (by omega)
    rw [h2, h3, htake]
    rfl
  · show (arr1.array.set arr1.cardinality x).length = arr1.capacity
    rw [List.length_set]
    exact harr1len
  · show arr1.cardinality + 1 ≤ arr1.capacity
    omega

end CRoaring
namespace CRoaring

theorem add_found (arr : array_container_t) (x : Nat) (h : Inv arr)
    (hx : x ∈ elems arr) : array_container_add arr x = (arr, false) := by
  obtain ⟨⟨hlen, hcard⟩, hs⟩ := h
  have hcardlen : arr.cardinality ≤ arr.array.length := by omega
  have hellen : (elems arr).length = arr.cardinality := length_elems arr hcardlen
  have hpos : 1 ≤ arr.cardinality := by
    have := List.length_pos.mpr (List.ne_nil_of_mem hx)
    omega
  have hemp : array_container_empty arr = false := by
    unfold array_container_empty
    simp only [beq_eq_false_iff_ne, ne_eq]
    omega
  have hlast : ¬ arr.array.getD (arr.cardinality - 1) 0 < x := by
    have := elem_le_last arr x hcardlen hs hx
    omega
  have hcond : (array_container_empty arr ||
      decide (arr.array.getD (arr.cardinality - 1) 0 < x)) = false := by
    rw [hemp, decide_eq_false hlast]
    rfl
  have hfound := binarySearch_found arr.array arr.cardinality x hx
  have hloc : ¬ binarySearch arr.array arr.cardinality x < 0 := by
    rw [hfound]
    omega
  unfold array_container_add
  dsimp only
  rw [hcond]
  rw [if_neg (by simp)]
  rw [if_neg hloc]

end CRoaring
namespace CRoaring

theorem add_prefix_eq (dst : List Nat) (card ip x : Nat)
    (hip : ip ≤ card) (hcard : card + 1 ≤ dst.length) :
    ((buf_write dst (ip + 1)
        ((dst.drop ip).take (card - ip))).set ip x).take (card + 1) =
      dst.take ip ++ x :: (dst.drop ip).take (card - ip) := by
  have hseglen : ((dst.drop ip).take (card - ip)).length = card - ip := by
    simp only [List.length_take, List.length_drop]
    omega
  unfold buf_write
  rw [hseglen]
  have hlen1 : (dst.take (ip + 1) ++ List.take (card - ip) (dst.drop ip) ++
      dst.drop (ip + 1 + (card - ip))).length = dst.length := by
    simp only [List.length_append, List.length_take, List.length_drop]
    omega
  rw [List.take_of_length_le (le_of_eq hlen1)]
  rw [List.set_append]
  have hlen2 : (dst.take (ip + 1) ++ List.take (card - ip) (dst.drop ip)).length
      = card + 1 := by
    simp only [List.length_append, List.length_take, List.length_drop]
    omega
  rw [if_pos (by omega)]
  rw [List.set_append]
  have hlen3 : (dst.take (ip + 1)).length = ip + 1 := by
    simp only [List.length_take]
    omega
  rw [if_pos (by omega)]
  rw [List.set_eq_take_cons_drop x (by omega)]
  rw [List.take_take]
  have h1 : ip ⊓ (ip + 1) = ip := by omega
  rw [h1]
  rw [List.drop_take]
  have h2 : ip + 1 - (ip + 1) = 0 := by omega
  rw [h2, List.take_zero]
  rw [List.take_left' (by
    simp only [List.length_append, List.length_cons, List.length_nil,
      List.length_take, List.length_drop]
    omega)]
  simp only [List.append_assoc, List.cons_append, List.nil_append]

theorem sorted_insert_mid (l : List Nat) (x : Nat)
    (hs : List.Sorted (· < ·) l) (hx : x ∉ l) :
    List.Sorted (· < ·)
      (l.take (l.countP (fun y => decide (y < x))) ++
        x :: l.drop (l.countP (fun y => decide (y < x)))) := by
  obtain ⟨hsp1, hsp2, _⟩ := sorted_countP_split x l hs
  have hdrop : ∀ y ∈ l.drop (l.countP (fun y => decide (y < x))), x < y := by
    intro y hy
    have h1 := hsp2 y hy
    have h2 : y ≠ x := by
      intro he
      exact hx (he ▸ (List.drop_sublist _ _).mem hy)
    omega
  apply List.pairwise_append.mpr
  refine ⟨List.Pairwise.sublist (List.take_sublist _ _) hs, ?_, ?_⟩
  · exact List.sorted_cons.mpr
      ⟨hdrop, List.Pairwise.sublist (List.drop_sublist _ _) hs⟩
  · intro a ha b hb
    have hax : a < x := hsp1 a ha
    rcases List.mem_cons.mp hb with h | h
    · omega
    · have := hdrop b h
      omega

theorem grow_if_full_facts (arr : array_container_t)
    (hlen : arr.array.length = arr.capacity)
    (hcard : arr.cardinality ≤ arr.capacity) (hcap : arr.capacity < INT32_MAX) :
    (if array_container_full arr then
        array_container_grow arr (arr.capacity + 1) INT32_MAX true
      else arr).array.length =
      (if array_container_full arr then
        array_container_grow arr (arr.capacity + 1) INT32_MAX true
      else arr).capacity ∧
    (if array_container_full arr then
        array_container_grow arr (arr.capacity + 1) INT32_MAX true
      else arr).cardinality = arr.cardinality ∧
    arr.cardinality <
      (if array_container_full arr then
        array_container_grow arr (arr.capacity + 1) INT32_MAX true
      else arr).capacity ∧
    (if array_container_full arr then
        array_container_grow arr (arr.capacity + 1) INT32_MAX true
      else arr).array.take arr.cardinality = arr.array.take arr.cardinality := by
  have hmnmx : arr.capacity + 1 ≤ INT32_MAX := by omega
  split_ifs with hf
  · refine ⟨grow_length arr (arr.capacity + 1) INT32_MAX true,
      (grow_fields arr (arr.capacity + 1) INT32_MAX true).2, ?_, ?_⟩
    · have := (grow_capacity_bounds arr (arr.capacity + 1) INT32_MAX true hmnmx).1
      omega
    · exact grow_take arr (arr.capacity + 1) INT32_MAX arr.cardinality
        (by
          have := (grow_capacity_bounds arr (arr.capacity + 1) INT32_MAX true
            hmnmx).1
          omega)
        (by omega)
  · refine ⟨hlen, rfl, ?_, rfl⟩
    unfold array_container_full at hf
    simp only [beq_iff_eq] at hf
    omega

end CRoaring
namespace CRoaring

theorem add_notfound (arr : array_container_t) (x : Nat) (h : Inv arr)
    (hcap : arr.capacity < INT32_MAX) (hx : x ∉ elems arr) :
    elems (array_container_add arr x).1 =
      (elems arr).take ((elems arr).countP (fun y => decide (y < x))) ++
        x :: (elems arr).drop ((elems arr).countP (fun y => decide (y < x))) ∧
    (array_container_add arr x).2 = true ∧
    Inv (array_container_add arr x).1 ∧
    (array_container_add arr x).1.cardinality = arr.cardinality + 1 := by
  obtain ⟨⟨hlen, hcard⟩, hs⟩ := h
  have hcardlen : arr.cardinality ≤ arr.array.length := by omega
  have hellen : (elems arr).length = arr.cardinality := length_elems arr hcardlen
  have hsame : arr.array.take arr.cardinality = elems arr := rfl
  set ip := (elems arr).countP (fun y => decide (y < x)) with hipdef
  have hiple : ip ≤ arr.cardinality := by
    have := List.countP_le_length (fun y => decide (y < x)) (l := elems arr)
    omega
  by_cases hfast : (array_container_empty arr ||
      decide (arr.array.getD (arr.cardinality - 1) 0 < x)) = true
  · have hres : array_container_add arr x =
        (array_container_append arr x, true) := by
      unfold array_container_add
      dsimp only
      rw [if_pos hfast]
    have hall : ∀ y ∈ elems arr, y < x := by
      intro y hy
      have hor := hfast
      rw [Bool.or_eq_true] at hor
      rcases hor with he | hl
      · unfold array_container_empty at he
        simp only [beq_iff_eq] at he
        have : elems arr = [] := by
          unfold elems
          rw [he, List.take_zero]
        rw [this] at hy
        exact absurd hy (List.not_mem_nil y)
      · have h1 := of_decide_eq_true hl
        have h2 := elem_le_last arr y hcardlen hs hy
        omega
    have hipcard : ip = arr.cardinality := by
      rw [hipdef, ← hellen]
      exact List.countP_eq_length.mpr (fun a ha => decide_eq_true (hall a ha))
    obtain ⟨hel, hcd, hwf⟩ := append_elems arr x ⟨⟨hlen, hcard⟩, hs⟩ hcap
    have htake : (elems arr).take ip = elems arr :=
      List.take_of_length_le (by omega)
    have hdrop : (elems arr).drop ip = [] := List.drop_eq_nil_of_le (by omega)
    rw [hres]
    refine ⟨?_, rfl, ⟨hwf, ?_⟩, hcd⟩
    · show elems (array_container_append arr x) = _
      rw [hel, htake, hdrop]
    · show List.Sorted (· < ·) (elems (array_container_append arr x))
      rw [hel]
      have hins := sorted_insert_mid (elems arr) x hs hx
      rw [← hipdef, htake, hdrop] at hins
      exact hins
  · have hfastf : (array_container_empty arr ||
        decide (arr.array.getD (arr.cardinality - 1) 0 < x)) = false :=
      Bool.eq_false_iff.mpr hfast
    have hnotfound := binarySearch_notfound arr.array arr.cardinality x hx
    rw [hsame, ← hipdef] at hnotfound
    have hloc : binarySearch arr.array arr.cardinality x < 0 := by
      rw [hnotfound]
      omega
    have htn : (-(binarySearch arr.array arr.cardinality x) - 1).toNat = ip := by
      rw [hnotfound]
      have he : (-(-(ip : Int) - 1) - 1) = (ip : Int) := by ring
      rw [he, Int.toNat_natCast]
    obtain ⟨g1, g2, g3, g4⟩ := grow_if_full_facts arr hlen hcard hcap
    set arr1 := if array_container_full arr then
        array_container_grow arr (arr.capacity + 1) INT32_MAX true
      else arr with harr1
    have hres : array_container_add arr x =
        ({ capacity := arr1.capacity, cardinality := arr.cardinality + 1,
           array := (buf_write arr1.array (ip + 1)
             (buf_read arr1.array ip (arr.cardinality - ip))).set ip x },
         true) := by
      unfold array_container_add
      dsimp only
      rw [hfastf]
      rw [if_neg (by simp)]
      rw [if_pos hloc]
      rw [htn, ← harr1]
    have hlenarr1 : arr.cardinality + 1 ≤ arr1.array.length := by omega
    have heq : ((buf_write arr1.array (ip + 1)
        (buf_read arr1.array ip (arr.cardinality - ip))).set ip x).take
          (arr.cardinality + 1) =
        (elems arr).take ip ++ x :: (elems arr).drop ip := by
      unfold buf_read
      rw [add_prefix_eq arr1.array arr.cardinality ip x hiple hlenarr1]
      have e1 : arr1.array.take ip = (elems arr).take ip := by
        calc arr1.array.take ip
            = (arr1.array.take arr.cardinality).take ip := by
              rw [List.take_take]
              congr 1
              omega
          _ = (arr.array.take arr.cardinality).take ip := by rw [g4]
          _ = (elems arr).take ip := rfl
      have e2 : (arr1.array.drop ip).take (arr.cardinality - ip) =
          (elems arr).drop ip := by
        calc (arr1.array.drop ip).take (arr.cardinality - ip)
            = (arr1.array.take arr.cardinality).drop ip := by
              rw [List.drop_take]
          _ = (arr.array.take arr.cardinality).drop ip := by rw [g4]
          _ = (elems arr).drop ip := rfl
      rw [e1, e2]
    rw [hres]
    refine ⟨heq, rfl, ⟨⟨?_, ?_⟩, ?_⟩, rfl⟩
    · show ((buf_write arr1.array (ip + 1)
        (buf_read arr1.array ip (arr.cardinality - ip))).set ip x).length =
        arr1.capacity
      rw [List.length_set, length_buf_write]
      exact g1
    · show arr.cardinality + 1 ≤ arr1.capacity
      omega
    · show List.Sorted (· < ·) (((buf_write arr1.array (ip + 1)
        (buf_read arr1.array ip (arr.cardinality - ip))).set ip x).take
          (arr.cardinality + 1))
      rw [heq]
      have hins := sorted_insert_mid (elems arr) x hs hx
      rw [← hipdef] at hins
      exact hins

/-- C4: `add(c, x)` returns true exactly when `x` was absent, afterwards
`contains(c, x)` holds, adding does not mutate when `x` is present, and a
second `add` of the same value returns false and leaves the container
unchanged. -/
theorem array_container_add_spec (arr : array_container_t) (x : Nat)
    (h : Inv arr) (_hx16 : x < 65536) (hcap : arr.capacity < INT32_MAX) :
    add_post arr x := by
  unfold add_post
  by_cases hx : x ∈ elems arr
  · have hres := add_found arr x h hx
    refine ⟨?_, ?_, ?_, ?_, ?_⟩
    · rw [hres]
      simp [hx]
    · rw [hres]
      show array_container_contains arr x = true
      rw [contains_iff]
      exact hx
    · intro _
      rw [hres]
    · rw [hres]
      show (array_container_add arr x).2 = false
      rw [hres]
    · rw [hres]
      show (array_container_add arr x).1 = arr
      rw [hres]
  · obtain ⟨heq, hb, hinv2, hcd⟩ := add_notfound arr x h hcap hx
    have hxmem : x ∈ elems (array_container_add arr x).1 := by
      rw [heq]
      exact List.mem_append.mpr (Or.inr (List.mem_cons_self x _))
    have hres2 := add_found (array_container_add arr x).1 x hinv2 hxmem
    refine ⟨?_, ?_, ?_, ?_, ?_⟩
    · rw [hb]
      simp [hx]
    · rw [contains_iff]
      exact hxmem
    · intro hc
      exact absurd hc hx
    · rw [hres2]
    · rw [hres2]

/-- Witness for C4 at the container {1,3,5} and the new middle value 2. -/
theorem array_container_add_spec_witness :
    Inv exA ∧ 2 < 65536 ∧ exA.capacity < INT32_MAX ∧ add_post exA 2 :=
  ⟨by decide, by decide, by decide,
    array_container_add_spec exA 2 (by decide) (by decide) (by decide)⟩

end CRoaring
namespace CRoaring

theorem mem_union_uint16 (z : Nat) :
    ∀ a b : List Nat, z ∈ union_uint16 a b ↔ z ∈ a ∨ z ∈ b := by
  intro a
  induction a with
  | nil =>
    intro b
    simp [union_uint16]
  | cons x xs ih =>
    intro b
    induction b with
    | nil =>
      simp [union_uint16]
    | cons y ys ihb =>
      simp only [union_uint16]
      split_ifs with h1 h2
      · simp only [List.mem_cons, ih (y :: ys)]
        tauto
      · simp only [List.mem_cons] at ihb ⊢
        rw [ihb]
        tauto
      · have hxy : x = y := by omega
        subst hxy
        simp only [List.mem_cons, ih ys]
        tauto

theorem sorted_union_uint16 :
    ∀ a b : List Nat, List.Sorted (· < ·) a → List.Sorted (· < ·) b →
      List.Sorted (· < ·) (union_uint16 a b) := by
  intro a
  induction a with
  | nil =>
    intro b _ hb
    simpa [union_uint16] using hb
  | cons x xs ih =>
    intro b
    induction b with
    | nil =>
      intro ha _
      simpa [union_uint16] using ha
    | cons y ys ihb =>
      intro ha hb
      have ha' := ha
      have hb' := hb
      rw [List.sorted_cons] at ha hb
      obtain ⟨hxall, hxs⟩ := ha
      obtain ⟨hyall, hys⟩ := hb
      simp only [union_uint16]
      split_ifs with h1 h2
      · apply List.sorted_cons.mpr
        refine ⟨?_, ih (y :: ys) hxs hb'⟩
        intro z hz
        rcases (mem_union_uint16 z xs (y :: ys)).mp hz with h | h
        · exact hxall z h
        · rcases List.mem_cons.mp h with h | h
          · omega
          · have := hyall z h
            omega
      · apply List.sorted_cons.mpr
        refine ⟨?_, ihb ha' hys⟩
        intro z hz
        rcases (mem_union_uint16 z (x :: xs) ys).mp hz with h | h
        · rcases List.mem_cons.mp h with h | h
          · omega
          · have := hxall z h
            omega
        · have := hyall z h
          omega
      · have hxy : x = y := by omega
        apply List.sorted_cons.mpr
        refine ⟨?_, ih ys hxs hys⟩
        intro z hz
        rcases (mem_union_uint16 z xs ys).mp hz with h | h
        · exact hxall z h
        · have := hyall z h
          omega

theorem length_union_uint16_le :
    ∀ a b : List Nat, (union_uint16 a b).length ≤ a.length + b.length := by
  intro a
  induction a with
  | nil =>
    intro b
    simp [union_uint16]
  | cons x xs ih =>
    intro b
    induction b with
    | nil =>
      simp [union_uint16]
    | cons y ys ihb =>
      simp only [union_uint16]
      split_ifs with h1 h2 <;> simp only [List.length_cons]
      · have := ih (y :: ys)
        simp only [List.length_cons] at this
        omega
      · simp only [List.length_cons] at ihb
        omega
      · have := ih ys
        omega

theorem intersect_uint16_sublist_left :
    ∀ a b : List Nat, (intersect_uint16 a b).Sublist a := by
  intro a
  induction a with
  | nil =>
    intro b
    simp [intersect_uint16]
  | cons x xs ih =>
    intro b
    induction b with
    | nil =>
      simp [intersect_uint16]
    | cons y ys ihb =>
      simp only [intersect_uint16]
      split_ifs with h1 h2
      · exact (ih (y :: ys)).cons x
      · exact ihb
      · exact (ih ys).cons₂ x

theorem intersect_uint16_sublist_right :
    ∀ a b : List Nat, (intersect_uint16 a b).Sublist b := by
  intro a
  induction a with
  | nil =>
    intro b
    simp [intersect_uint16]
  | cons x xs ih =>
    intro b
    induction b with
    | nil =>
      simp [intersect_uint16]
    | cons y ys ihb =>
      simp only [intersect_uint16]
      split_ifs with h1 h2
      · exact ih (y :: ys)
      · exact ihb.cons y
      · have hxy : x = y := by omega
        subst hxy
        exact (ih ys).cons₂ x

theorem sorted_intersect_uint16 (a b : List Nat)
    (ha : List.Sorted (· < ·) a) : List.Sorted (· < ·) (intersect_uint16 a b) :=
  List.Pairwise.sublist (intersect_uint16_sublist_left a b) ha

theorem mem_intersect_uint16 (z : Nat) :
    ∀ a b : List Nat, List.Sorted (· < ·) a → List.Sorted (· < ·) b →
      (z ∈ intersect_uint16 a b ↔ z ∈ a ∧ z ∈ b) := by
  intro a
  induction a with
  | nil =>
    intro b _ _
    simp [intersect_uint16]
  | cons x xs ih =>
    intro b
    induction b with
    | nil =>
      intro _ _
      simp [intersect_uint16]
    | cons y ys ihb =>
      intro ha hb
      have ha' := ha
      have hb' := hb
      rw [List.sorted_cons] at ha hb
      obtain ⟨hxall, hxs⟩ := ha
      obtain ⟨hyall, hys⟩ := hb
      simp only [intersect_uint16]
      split_ifs with h1 h2
      · rw [ih (y :: ys) hxs hb']
        simp only [List.mem_cons]
        constructor
        · rintro ⟨h3, h4⟩
          exact ⟨Or.inr h3, h4⟩
        · rintro ⟨h3 | h3, h4⟩
          · subst h3
            rcases h4 with h4 | h4
            · omega
            · have := hyall z h4
              omega
          · exact ⟨h3, h4⟩
      · rw [ihb ha' hys]
        simp only [List.mem_cons]
        constructor
        · rintro ⟨h3, h4⟩
          exact ⟨h3, Or.inr h4⟩
        · rintro ⟨h3, h4 | h4⟩
          · subst h4
            rcases h3 with h3 | h3
            · omega
            · have := hxall z h3
              omega
          · exact ⟨h3, h4⟩
      · have hxy : x = y := by omega
        subst hxy
        rw [List.mem_cons, ih ys hxs hys]
        simp only [List.mem_cons]
        constructor
        · rintro (h3 | ⟨h4, h5⟩)
          · exact ⟨Or.inl h3, Or.inl h3⟩
          · exact ⟨Or.inr h4, Or.inr h5⟩
        · rintro ⟨h3 | h3, h4 | h4⟩
          · exact Or.inl h3
          · exact Or.inl h3
          · have := hxall z h3
            omega
          · exact Or.inr ⟨h3, h4⟩

theorem mem_intersect_skewed (z : Nat) (small large : List Nat) :
    z ∈ intersect_skewed_uint16 small large ↔ z ∈ small ∧ z ∈ large := by
  unfold intersect_skewed_uint16
  rw [List.mem_filter]
  simp [decide_eq_true_iff]

theorem sorted_intersect_skewed (small large : List Nat)
    (hs : List.Sorted (· < ·) small) :
    List.Sorted (· < ·) (intersect_skewed_uint16 small large) :=
  List.Pairwise.sublist (List.filter_sublist small) hs

theorem sorted_lt_eq_of_mem_iff :
    ∀ l1 l2 : List Nat, List.Sorted (· < ·) l1 → List.Sorted (· < ·) l2 →
      (∀ z, z ∈ l1 ↔ z ∈ l2) → l1 = l2 := by
  intro l1
  induction l1 with
  | nil =>
    intro l2 _ _ hmem
    cases l2 with
    | nil => rfl
    | cons y ys =>
      exact absurd ((hmem y).mpr (List.mem_cons_self y ys)) (List.not_mem_nil y)
  | cons x xs ih =>
    intro l2 h1 h2 hmem
    cases l2 with
    | nil =>
      exact absurd ((hmem x).mp (List.mem_cons_self x xs)) (List.not_mem_nil x)
    | cons y ys =>
      rw [List.sorted_cons] at h1 h2
      obtain ⟨hxall, hxs⟩ := h1
      obtain ⟨hyall, hys⟩ := h2
      have hxy : x = y := by
        rcases List.mem_cons.mp ((hmem x).mp (List.mem_cons_self x xs)) with h | h
        · exact h
        · have hyx := hyall x h
          rcases List.mem_cons.mp ((hmem y).mpr (List.mem_cons_self y ys)) with
            h' | h'
          · omega
          · have := hxall y h'
            omega
      subst hxy
      have htail : ∀ z, z ∈ xs ↔ z ∈ ys := by
        intro z
        constructor
        · intro hz
          have hxz := hxall z hz
          rcases List.mem_cons.mp
            ((hmem z).mp (List.mem_cons.mpr (Or.inr hz))) with h | h
          · omega
          · exact h
        · intro hz
          have hyz := hyall z hz
          rcases List.mem_cons.mp
            ((hmem z).mpr (List.mem_cons.mpr (Or.inr hz))) with h | h
          · omega
          · exact h
      rw [ih ys hxs hys htail]

end CRoaring
namespace CRoaring

/-- C7: for the same pair of containers, the skewed (galloping) intersection
path and the balanced linear-merge path produce bit-for-bit identical ordered
output, in either skew orientation, hence also the same result count. -/
theorem intersection_paths_agree (a b : array_container_t)
    (ha : Inv a) (hb : Inv b) : paths_agree_post a b := by
  obtain ⟨_, hsa⟩ := ha
  obtain ⟨_, hsb⟩ := hb
  unfold paths_agree_post
  have h1 : intersect_skewed_uint16 (elems a) (elems b) =
      intersect_uint16 (elems a) (elems b) := by
    apply sorted_lt_eq_of_mem_iff _ _ (sorted_intersect_skewed _ _ hsa)
      (sorted_intersect_uint16 _ _ hsa)
    intro z
    rw [mem_intersect_skewed, mem_intersect_uint16 z _ _ hsa hsb]
  have h2 : intersect_skewed_uint16 (elems b) (elems a) =
      intersect_uint16 (elems a) (elems b) := by
    apply sorted_lt_eq_of_mem_iff _ _ (sorted_intersect_skewed _ _ hsb)
      (sorted_intersect_uint16 _ _ hsa)
    intro z
    rw [mem_intersect_skewed, mem_intersect_uint16 z _ _ hsa hsb]
    tauto
  exact ⟨h1, h2, by rw [h1]⟩

/-- Witness for C7 at the containers {1,3,5} and {3,4,5}. -/
theorem intersection_paths_agree_witness :
    Inv exA ∧ Inv exB ∧ paths_agree_post exA exB :=
  ⟨by decide, by decide, intersection_paths_agree exA exB (by decide) (by decide)⟩

theorem buf_read_zero_elems (c : array_container_t) :
    buf_read c.array 0 c.cardinality = elems c := by
  unfold buf_read elems
  rw [List.drop_zero]

theorem buf_write_take (dst src : List Nat) (h : src.length ≤ dst.length) :
    (buf_write dst 0 src).take src.length = src := by
  rw [buf_write_zero dst src h]
  exact List.take_left' rfl

theorem nodup_of_sorted_lt (l : List Nat) (h : List.Sorted (· < ·) l) :
    l.Nodup :=
  List.Pairwise.imp (fun hlt => Nat.ne_of_lt hlt) h

/-- C5: `union(A, B, out)` grows `out` (not preserving) exactly per the source
when `out.capacity < |A| + |B|`, and leaves `out` holding the set `A ∪ B` in
strictly ascending order with duplicates eliminated, `out.cardinality` being
the number of distinct elements. -/
theorem array_container_union_spec (a b out : array_container_t)
    (ha : Inv a) (hb : Inv b) (hout : wfc out)
    (hbound : a.cardinality + b.cardinality ≤ INT32_MAX) :
    union_post a b out := by
  obtain ⟨⟨halen, hacard⟩, hsa⟩ := ha
  obtain ⟨⟨hblen, hbcard⟩, hsb⟩ := hb
  obtain ⟨holen, hocard⟩ := hout
  have hal : (elems a).length = a.cardinality := length_elems a (by omega)
  have hbl : (elems b).length = b.cardinality := length_elems b (by omega)
  set out1 := if out.capacity < a.cardinality + b.cardinality then
      array_container_grow out (a.cardinality + b.cardinality) INT32_MAX false
    else out with hout1def
  set res := if a.cardinality < b.cardinality then
      union_uint16 (buf_read a.array 0 a.cardinality)
        (buf_read b.array 0 b.cardinality)
    else
      union_uint16 (buf_read b.array 0 b.cardinality)
        (buf_read a.array 0 a.cardinality) with hresdef
  have hueq : array_container_union a b out =
      { capacity := out1.capacity, cardinality := res.length,
        array := buf_write out1.array 0 res } := rfl
  have hmem : ∀ z, z ∈ res ↔ z ∈ elems a ∨ z ∈ elems b := by
    intro z
    rw [hresdef]
    split_ifs with h1
    · rw [buf_read_zero_elems a, buf_read_zero_elems b, mem_union_uint16]
    · rw [buf_read_zero_elems a, buf_read_zero_elems b, mem_union_uint16]
      tauto
  have hsorted : List.Sorted (· < ·) res := by
    rw [hresdef]
    split_ifs with h1
    · rw [buf_read_zero_elems a, buf_read_zero_elems b]
      exact sorted_union_uint16 _ _ hsa hsb
    · rw [buf_read_zero_elems a, buf_read_zero_elems b]
      exact sorted_union_uint16 _ _ hsb hsa
  have hreslen : res.length ≤ a.cardinality + b.cardinality := by
    rw [hresdef]
    split_ifs with h1
    · rw [buf_read_zero_elems a, buf_read_zero_elems b]
      have := length_union_uint16_le (elems a) (elems b)
      omega
    · rw [buf_read_zero_elems a, buf_read_zero_elems b]
      have := length_union_uint16_le (elems b) (elems a)
      omega
  have hcap1 : a.cardinality + b.cardinality ≤ out1.capacity ∧
      out1.array.length = out1.capacity := by
    rw [hout1def]
    split_ifs with h1
    · exact ⟨(grow_capacity_bounds out (a.cardinality + b.cardinality)
        INT32_MAX false hbound).1,
        grow_length out (a.cardinality + b.cardinality) INT32_MAX false⟩
    · exact ⟨by omega, by omega⟩
  have helems : elems (array_container_union a b out) = res := by
    rw [hueq]
    show (buf_write out1.array 0 res).take res.length = res
    exact buf_write_take out1.array res (by omega)
  unfold union_post
  refine ⟨?_, ?_, ?_, ?_, ?_⟩
  · intro hlt
    rw [hueq]
    show out1.capacity = _
    rw [hout1def, if_pos hlt]
  · rw [helems]
    exact hsorted
  · intro z
    rw [helems]
    exact hmem z
  · rw [helems, hueq]
  · rw [hueq]
    show res.length = _
    have hnd : res.Nodup := nodup_of_sorted_lt res hsorted
    have hfs : res.toFinset = (elems a).toFinset ∪ (elems b).toFinset := by
      ext z
      simp only [List.mem_toFinset, Finset.mem_union]
      exact hmem z
    rw [← hfs, List.toFinset_card_of_nodup hnd]

/-- Witness for C5 at A = {1,3,5}, B = {3,4,5} and an empty output of
capacity 8. -/
theorem array_container_union_spec_witness :
    Inv exA ∧ Inv exB ∧ wfc exOut ∧
      exA.cardinality + exB.cardinality ≤ INT32_MAX ∧
      union_post exA exB exOut :=
  ⟨by decide, by decide, by decide, by decide,
    array_container_union_spec exA exB exOut (by decide) (by decide)
      (by decide) (by decide)⟩

end CRoaring
namespace CRoaring

theorem union_res_length_le (a b : array_container_t)
    (hal : (elems a).length = a.cardinality)
    (hbl : (elems b).length = b.cardinality) :
    (if a.cardinality < b.cardinality then
        union_uint16 (buf_read a.array 0 a.cardinality)
          (buf_read b.array 0 b.cardinality)
      else
        union_uint16 (buf_read b.array 0 b.cardinality)
          (buf_read a.array 0 a.cardinality)).length ≤
      a.cardinality + b.cardinality := by
  split_ifs with h1
  · rw [buf_read_zero_elems a, buf_read_zero_elems b]
    have := length_union_uint16_le (elems a) (elems b)
    omega
  · rw [buf_read_zero_elems a, buf_read_zero_elems b]
    have := length_union_uint16_le (elems b) (elems a)
    omega

theorem intersection_res_length_le (a b : array_container_t)
    (hal : (elems a).length = a.cardinality)
    (hbl : (elems b).length = b.cardinality) :
    (if a.cardinality * 64 < b.cardinality then
        intersect_skewed_uint16 (buf_read a.array 0 a.cardinality)
          (buf_read b.array 0 b.cardinality)
      else if b.cardinality * 64 < a.cardinality then
        intersect_skewed_uint16 (buf_read b.array 0 b.cardinality)
          (buf_read a.array 0 a.cardinality)
      else
        intersect_uint16 (buf_read a.array 0 a.cardinality)
          (buf_read b.array 0 b.cardinality)).length ≤
      minimum a.cardinality b.cardinality := by
  rw [buf_read_zero_elems a, buf_read_zero_elems b]
  have l1 : (intersect_skewed_uint16 (elems a) (elems b)).length ≤
      a.cardinality := by
    have := List.length_filter_le (fun x => decide (x ∈ elems b)) (elems a)
    unfold intersect_skewed_uint16
    omega
  have l2 : (intersect_skewed_uint16 (elems b) (elems a)).length ≤
      b.cardinality := by
    have := List.length_filter_le (fun x => decide (x ∈ elems a)) (elems b)
    unfold intersect_skewed_uint16
    omega
  have l3 : (intersect_uint16 (elems a) (elems b)).length ≤ a.cardinality := by
    have := (intersect_uint16_sublist_left (elems a) (elems b)).length_le
    omega
  have l4 : (intersect_uint16 (elems a) (elems b)).length ≤ b.cardinality := by
    have := (intersect_uint16_sublist_right (elems a) (elems b)).length_le
    omega
  unfold minimum
  split_ifs <;> omega

/-- C6: `intersection(A, B, out)` grows `out` (not preserving) exactly per
the source when `out.capacity < min(|A|, |B|)`, leaves `out` holding `A ∩ B`
in ascending order with cardinality the intersection size, and takes a skewed
path exactly when one cardinality exceeds 64 times the other. -/
theorem array_container_intersection_spec (a b out : array_container_t)
    (ha : Inv a) (hb : Inv b) (hout : wfc out)
    (hbound : minimum a.cardinality b.cardinality ≤ INT32_MAX) :
    intersection_post a b out := by
  obtain ⟨⟨halen, hacard⟩, hsa⟩ := ha
  obtain ⟨⟨hblen, hbcard⟩, hsb⟩ := hb
  obtain ⟨holen, hocard⟩ := hout
  have hal : (elems a).length = a.cardinality := length_elems a (by omega)
  have hbl : (elems b).length = b.cardinality := length_elems b (by omega)
  set out1 := if out.capacity < minimum a.cardinality b.cardinality then
      array_container_grow out (minimum a.cardinality b.cardinality) INT32_MAX
        false
    else out with hout1def
  set res := if a.cardinality * 64 < b.cardinality then
      intersect_skewed_uint16 (buf_read a.array 0 a.cardinality)
        (buf_read b.array 0 b.cardinality)
    else if b.cardinality * 64 < a.cardinality then
      intersect_skewed_uint16 (buf_read b.array 0 b.cardinality)
        (buf_read a.array 0 a.cardinality)
    else
      intersect_uint16 (buf_read a.array 0 a.cardinality)
        (buf_read b.array 0 b.cardinality) with hresdef
  have hueq : array_container_intersection a b out =
      { capacity := out1.capacity, cardinality := res.length,
        array := buf_write out1.array 0 res } := rfl
  have hmem : ∀ z, z ∈ res ↔ z ∈ elems a ∧ z ∈ elems b := by
    intro z
    rw [hresdef]
    split_ifs with h1 h2
    · rw [buf_read_zero_elems a, buf_read_zero_elems b, mem_intersect_skewed]
    · rw [buf_read_zero_elems a, buf_read_zero_elems b, mem_intersect_skewed]
      tauto
    · rw [buf_read_zero_elems a, buf_read_zero_elems b,
        mem_intersect_uint16 z _ _ hsa hsb]
  have hsorted : List.Sorted (· < ·) res := by
    rw [hresdef]
    split_ifs with h1 h2
    · rw [buf_read_zero_elems a, buf_read_zero_elems b]
      exact sorted_intersect_skewed _ _ hsa
    · rw [buf_read_zero_elems a, buf_read_zero_elems b]
      exact sorted_intersect_skewed _ _ hsb
    · rw [buf_read_zero_elems a, buf_read_zero_elems b]
      exact sorted_intersect_uint16 _ _ hsa
  have hreslen : res.length ≤ minimum a.cardinality b.cardinality := by
    rw [hresdef]
    exact intersection_res_length_le a b hal hbl
  have hcap1 : minimum a.cardinality b.cardinality ≤ out1.capacity ∧
      out1.array.length = out1.capacity := by
    rw [hout1def]
    split_ifs with h1
    · exact ⟨(grow_capacity_bounds out (minimum a.cardinality b.cardinality)
        INT32_MAX false hbound).1,
        grow_length out (minimum a.cardinality b.cardinality) INT32_MAX false⟩
    · exact ⟨by omega, by omega⟩
  have helems : elems (array_container_intersection a b out) = res := by
    rw [hueq]
    show (buf_write out1.array 0 res).take res.length = res
    exact buf_write_take out1.array res (by omega)
  unfold intersection_post
  refine ⟨?_, ?_, ?_, ?_, ?_⟩
  · intro hlt
    rw [hueq]
    show out1.capacity = _
    rw [hout1def, if_pos hlt]
  · rw [helems]
    exact hsorted
  · intro z
    rw [helems]
    exact hmem z
  · rw [helems, hueq]
  · unfold minimum
    split_ifs <;> omega

/-- Witness for C6 at A = {1,3,5}, B = {3,4,5} and an empty output of
capacity 8. -/
theorem array_container_intersection_spec_witness :
    Inv exA ∧ Inv exB ∧ wfc exOut ∧
      minimum exA.cardinality exB.cardinality ≤ INT32_MAX ∧
      intersection_post exA exB exOut :=
  ⟨by decide, by decide, by decide, by decide,
    array_container_intersection_spec exA exB exOut (by decide) (by decide)
      (by decide) (by decide)⟩

end CRoaring
namespace CRoaring

/-- C10: when the output container's capacity already suffices
(`|A| + |B|` for union, `min(|A|, |B|)` for intersection), the operation does
not regrow it: capacity and buffer length are unchanged and the buffer slots
from index `cardinality` on keep their previous contents, so only the
cardinality field and the first result-count slots are modified. -/
theorem union_intersection_frame (a b out : array_container_t)
    (ha : wfc a) (hb : wfc b) (hout : wfc out) : frame_post a b out := by
  obtain ⟨halen, hacard⟩ := ha
  obtain ⟨hblen, hbcard⟩ := hb
  obtain ⟨holen, hocard⟩ := hout
  have hal : (elems a).length = a.cardinality := length_elems a (by omega)
  have hbl : (elems b).length = b.cardinality := length_elems b (by omega)
  unfold frame_post
  constructor
  · intro hge
    set out1 := if out.capacity < a.cardinality + b.cardinality then
        array_container_grow out (a.cardinality + b.cardinality) INT32_MAX
          false
      else out with hout1def
    set res := if a.cardinality < b.cardinality then
        union_uint16 (buf_read a.array 0 a.cardinality)
          (buf_read b.array 0 b.cardinality)
      else
        union_uint16 (buf_read b.array 0 b.cardinality)
          (buf_read a.array 0 a.cardinality) with hresdef
    have hueq : array_container_union a b out =
        { capacity := out1.capacity, cardinality := res.length,
          array := buf_write out1.array 0 res } := rfl
    have hone : out1 = out := by
      rw [hout1def, if_neg (by omega)]
    have hrl : res.length ≤ out.array.length := by
      have := union_res_length_le a b hal hbl
      rw [← hresdef] at this
      omega
    rw [hueq, hone]
    refine ⟨rfl, ?_, ?_⟩
    · exact length_buf_write out.array 0 res
    · show (buf_write out.array 0 res).drop res.length =
        out.array.drop res.length
      rw [buf_write_zero out.array res hrl]
      exact List.drop_left' rfl
  · intro hge
    set out1 := if out.capacity < minimum a.cardinality b.cardinality then
        array_container_grow out (minimum a.cardinality b.cardinality)
          INT32_MAX false
      else out with hout1def
    set res := if a.cardinality * 64 < b.cardinality then
        intersect_skewed_uint16 (buf_read a.array 0 a.cardinality)
          (buf_read b.array 0 b.cardinality)
      else if b.cardinality * 64 < a.cardinality then
        intersect_skewed_uint16 (buf_read b.array 0 b.cardinality)
          (buf_read a.array 0 a.cardinality)
      else
        intersect_uint16 (buf_read a.array 0 a.cardinality)
          (buf_read b.array 0 b.cardinality) with hresdef
    have hueq : array_container_intersection a b out =
        { capacity := out1.capacity, cardinality := res.length,
          array := buf_write out1.array 0 res } := rfl
    have hone : out1 = out := by
      rw [hout1def, if_neg (by omega)]
    have hrl : res.length ≤ out.array.length := by
      have := intersection_res_length_le a b hal hbl
      rw [← hresdef] at this
      omega
    rw [hueq, hone]
    refine ⟨rfl, ?_, ?_⟩
    · exact length_buf_write out.array 0 res
    · show (buf_write out.array 0 res).drop res.length =
        out.array.drop res.length
      rw [buf_write_zero out.array res hrl]
      exact List.drop_left' rfl

/-- Witness for C10 at A = {1,3,5}, B = {3,4,5} and an output of capacity 8
(enough for both bounds). -/
theorem union_intersection_frame_witness :
    wfc exA ∧ wfc exB ∧ wfc exOut ∧ frame_post exA exB exOut :=
  ⟨by decide, by decide, by decide,
    union_intersection_frame exA exB exOut (by decide) (by decide)
      (by decide)⟩

end CRoaring
namespace CRoaring

theorem ii_step_eq_stuck (src2 : List Nat) (c1 c2 : Nat) (s : ii_state)
    (hg : ¬ (s.read1_pos < c1 ∧ s.read2_pos < c2)) :
    ii_step src2 c1 c2 s = s := by
  unfold ii_step
  rw [if_neg hg]

theorem ii_step_eq_lt (src2 : List Nat) (c1 c2 : Nat) (s : ii_state)
    (hg : s.read1_pos < c1 ∧ s.read2_pos < c2)
    (hv : s.arr.getD s.read1_pos 0 < src2.getD s.read2_pos 0) :
    ii_step src2 c1 c2 s = { s with read1_pos := s.read1_pos + 1 } := by
  unfold ii_step
  rw [if_pos hg]
  dsimp only
  rw [if_pos hv]

theorem ii_step_eq_gt (src2 : List Nat) (c1 c2 : Nat) (s : ii_state)
    (hg : s.read1_pos < c1 ∧ s.read2_pos < c2)
    (hv : src2.getD s.read2_pos 0 < s.arr.getD s.read1_pos 0) :
    ii_step src2 c1 c2 s = { s with read2_pos := s.read2_pos + 1 } := by
  unfold ii_step
  rw [if_pos hg]
  dsimp only
  rw [if_neg (by omega), if_pos hv]

theorem ii_step_eq_match (src2 : List Nat) (c1 c2 : Nat) (s : ii_state)
    (hg : s.read1_pos < c1 ∧ s.read2_pos < c2)
    (hv : s.arr.getD s.read1_pos 0 = src2.getD s.read2_pos 0) :
    ii_step src2 c1 c2 s =
      { arr := s.arr.set s.card (s.arr.getD s.read1_pos 0),
        card := s.card + 1, read1_pos := s.read1_pos + 1,
        read2_pos := s.read2_pos + 1 } := by
  unfold ii_step
  rw [if_pos hg]
  dsimp only
  rw [if_neg (by omega), if_neg (by omega)]

theorem ii_step_cursor (src2 : List Nat) (c1 c2 : Nat) (s : ii_state)
    (h : s.card ≤ s.read1_pos) :
    (ii_step src2 c1 c2 s).card ≤ (ii_step src2 c1 c2 s).read1_pos := by
  by_cases hg : s.read1_pos < c1 ∧ s.read2_pos < c2
  · rcases Nat.lt_trichotomy (s.arr.getD s.read1_pos 0)
      (src2.getD s.read2_pos 0) with hv | hv | hv
    · rw [ii_step_eq_lt src2 c1 c2 s hg hv]
      dsimp only
      omega
    · rw [ii_step_eq_match src2 c1 c2 s hg hv]
      dsimp only
      omega
    · rw [ii_step_eq_gt src2 c1 c2 s hg hv]
      dsimp only
      omega
  · rw [ii_step_eq_stuck src2 c1 c2 s hg]
    exact h

theorem ii_run_cursor (src2 : List Nat) (c1 c2 : Nat) :
    ∀ (n : Nat) (s : ii_state), s.card ≤ s.read1_pos →
      (ii_run src2 c1 c2 n s).card ≤ (ii_run src2 c1 c2 n s).read1_pos := by
  intro n
  induction n with
  | zero =>
    intro s h
    exact h
  | succ n ih =>
    intro s h
    exact ih _ (ii_step_cursor src2 c1 c2 s h)

theorem ii_run_stuck (src2 : List Nat) (c1 c2 : Nat) :
    ∀ (n : Nat) (s : ii_state),
      ¬ (s.read1_pos < c1 ∧ s.read2_pos < c2) →
      ii_run src2 c1 c2 n s = s := by
  intro n
  induction n with
  | zero =>
    intro s _
    rfl
  | succ n ih =>
    intro s h
    have hstep : ii_step src2 c1 c2 s = s := by
      unfold ii_step
      rw [if_neg h]
    show ii_run src2 c1 c2 n (ii_step src2 c1 c2 s) = s
    rw [hstep]
    exact ih s h

theorem intersect_uint16_nil_right :
    ∀ a : List Nat, intersect_uint16 a [] = [] := by
  intro a
  cases a <;> simp [intersect_uint16]

end CRoaring
namespace CRoaring

theorem take_drop_head (arr : List Nat) (c1 r1 : Nat) (h1 : r1 < c1)
    (h2 : c1 ≤ arr.length) :
    (arr.take c1).drop r1 = arr.getD r1 0 :: (arr.take c1).drop (r1 + 1) := by
  have hlt : r1 < (arr.take c1).length := by
    simp only [List.length_take]
    omega
  rw [List.drop_eq_getElem_cons hlt]
  congr 1
  rw [List.getElem_take]
  exact (List.getD_eq_getElem arr 0 (by omega)).symm

theorem drop_take_set (l : List Nat) (i n m v : Nat) (h : i < n) :
    ((l.set i v).take m).drop n = (l.take m).drop n := by
  rw [List.drop_take, List.drop_take, List.drop_set, if_pos h]

theorem take_succ_set (l : List Nat) (i v : Nat) (h : i < l.length) :
    (l.set i v).take (i + 1) = l.take i ++ [v] := by
  rw [List.set_eq_take_cons_drop v h]
  rw [List.take_append_eq_append_take]
  have h1 : (l.take i).length = i := by
    simp only [List.length_take]
    omega
  rw [h1]
  have h2 : i + 1 - i = 1 := by omega
  have h3 : (l.take i).take (i + 1) = l.take i :=
    List.take_of_length_le (by simp only [List.length_take]; omega)
  rw [h2, h3]
  rfl

theorem intersect_cons_lt (x y : Nat) (xs ys : List Nat) (h : x < y) :
    intersect_uint16 (x :: xs) (y :: ys) = intersect_uint16 xs (y :: ys) := by
  simp only [intersect_uint16]
  rw [if_pos h]

theorem intersect_cons_gt (x y : Nat) (xs ys : List Nat) (h : y < x) :
    intersect_uint16 (x :: xs) (y :: ys) = intersect_uint16 (x :: xs) ys := by
  simp only [intersect_uint16]
  rw [if_neg (by omega), if_pos h]

theorem intersect_cons_match (x : Nat) (xs ys : List Nat) :
    intersect_uint16 (x :: xs) (x :: ys) = x :: intersect_uint16 xs ys := by
  simp only [intersect_uint16]
  rw [if_neg (by omega), if_neg (by omega)]

end CRoaring
namespace CRoaring

theorem ii_run_spec (src2 : List Nat) (c1 c2 : Nat) :
    ∀ (fuel : Nat) (s : ii_state),
      s.card ≤ s.read1_pos →
      s.read1_pos ≤ c1 → s.read2_pos ≤ c2 →
      c1 ≤ s.arr.length → c2 ≤ src2.length →
      c1 + c2 ≤ fuel + s.read1_pos + s.read2_pos →
      (ii_run src2 c1 c2 fuel s).arr.length = s.arr.length ∧
      (ii_run src2 c1 c2 fuel s).card =
        s.card + (intersect_uint16 ((s.arr.take c1).drop s.read1_pos)
          ((src2.take c2).drop s.read2_pos)).length ∧
      (ii_run src2 c1 c2 fuel s).arr.take (ii_run src2 c1 c2 fuel s).card =
        s.arr.take s.card ++
          intersect_uint16 ((s.arr.take c1).drop s.read1_pos)
            ((src2.take c2).drop s.read2_pos) := by
  intro fuel
  induction fuel with
  | zero =>
    intro s h1 h2 h3 h4 h5 h6
    have hnil : (s.arr.take c1).drop s.read1_pos = [] := by
      apply List.drop_eq_nil_of_le
      simp only [List.length_take]
      omega
    rw [show ii_run src2 c1 c2 0 s = s from rfl, hnil]
    simp [intersect_uint16]
  | succ n ih =>
    intro s h1 h2 h3 h4 h5 h6
    have hrun : ii_run src2 c1 c2 (n + 1) s =
        ii_run src2 c1 c2 n (ii_step src2 c1 c2 s) := rfl
    by_cases hg : s.read1_pos < c1 ∧ s.read2_pos < c2
    · obtain ⟨hg1, hg2⟩ := hg
      have hhead1 : (s.arr.take c1).drop s.read1_pos =
          s.arr.getD s.read1_pos 0 :: (s.arr.take c1).drop (s.read1_pos + 1) :=
        take_drop_head s.arr c1 s.read1_pos hg1 h4
      have hhead2 : (src2.take c2).drop s.read2_pos =
          src2.getD s.read2_pos 0 :: (src2.take c2).drop (s.read2_pos + 1) :=
        take_drop_head src2 c2 s.read2_pos hg2 h5
      rcases Nat.lt_trichotomy (s.arr.getD s.read1_pos 0)
        (src2.getD s.read2_pos 0) with hv | hv | hv
      · have hstep := ii_step_eq_lt src2 c1 c2 s ⟨hg1, hg2⟩ hv
        obtain ⟨ihL, ihC, ihT⟩ := ih { s with read1_pos := s.read1_pos + 1 }
          (by dsimp only; omega) (by dsimp only; omega) (by dsimp only; omega)
          (by dsimp only; exact h4) h5 (by dsimp only; omega)
        have hmerge : intersect_uint16 ((s.arr.take c1).drop s.read1_pos)
            ((src2.take c2).drop s.read2_pos) =
            intersect_uint16 ((s.arr.take c1).drop (s.read1_pos + 1))
              ((src2.take c2).drop s.read2_pos) := by
          rw [hhead1, hhead2]
          rw [intersect_cons_lt _ _ _ _ hv]
        rw [hrun, hstep, hmerge]
        exact ⟨ihL, ihC, ihT⟩
      · have hstep := ii_step_eq_match src2 c1 c2 s ⟨hg1, hg2⟩ hv
        obtain ⟨ihL, ihC, ihT⟩ := ih
          { arr := s.arr.set s.card (s.arr.getD s.read1_pos 0),
            card := s.card + 1, read1_pos := s.read1_pos + 1,
            read2_pos := s.read2_pos + 1 }
          (by dsimp only; omega) (by dsimp only; omega) (by dsimp only; omega)
          (by dsimp only; rw [List.length_set]; exact h4)
          h5 (by dsimp only; omega)
        have hsets : ((s.arr.set s.card
            (s.arr.getD s.read1_pos 0)).take c1).drop (s.read1_pos + 1) =
            (s.arr.take c1).drop (s.read1_pos + 1) :=
          drop_take_set s.arr s.card (s.read1_pos + 1) c1
            (s.arr.getD s.read1_pos 0) (by omega)
        have hmerge : intersect_uint16 ((s.arr.take c1).drop s.read1_pos)
            ((src2.take c2).drop s.read2_pos) =
            s.arr.getD s.read1_pos 0 ::
              intersect_uint16 ((s.arr.take c1).drop (s.read1_pos + 1))
                ((src2.take c2).drop (s.read2_pos + 1)) := by
          rw [hhead1, hhead2, ← hv]
          rw [intersect_cons_match]
        rw [hrun, hstep, hmerge]
        refine ⟨?_, ?_, ?_⟩
        · rw [ihL]
          dsimp only
          rw [List.length_set]
        · rw [ihC]
          dsimp only
          rw [hsets, List.length_cons]
          omega
        · rw [ihT]
          dsimp only
          rw [hsets]
          rw [take_succ_set s.arr s.card (s.arr.getD s.read1_pos 0)
            (by omega)]
          simp only [List.append_assoc, List.singleton_append]
      · have hstep := ii_step_eq_gt src2 c1 c2 s ⟨hg1, hg2⟩ hv
        obtain ⟨ihL, ihC, ihT⟩ := ih { s with read2_pos := s.read2_pos + 1 }
          (by dsimp only; omega) (by dsimp only; omega) (by dsimp only; omega)
          (by dsimp only; exact h4) h5 (by dsimp only; omega)
        have hmerge : intersect_uint16 ((s.arr.take c1).drop s.read1_pos)
            ((src2.take c2).drop s.read2_pos) =
            intersect_uint16 ((s.arr.take c1).drop s.read1_pos)
              ((src2.take c2).drop (s.read2_pos + 1)) := by
          rw [hhead1, hhead2]
          rw [intersect_cons_gt _ _ _ _ hv]
        rw [hrun, hstep, hmerge]
        exact ⟨ihL, ihC, ihT⟩
    · rw [ii_run_stuck src2 c1 c2 (n + 1) s hg]
      have hnil : intersect_uint16 ((s.arr.take c1).drop s.read1_pos)
          ((src2.take c2).drop s.read2_pos) = [] := by
        rcases not_and_or.mp hg with h | h
        · have he : (s.arr.take c1).drop s.read1_pos = [] := by
            apply List.drop_eq_nil_of_le
            simp only [List.length_take]
            omega
          rw [he]
          simp [intersect_uint16]
        · have he : (src2.take c2).drop s.read2_pos = [] := by
            apply List.drop_eq_nil_of_le
            simp only [List.length_take]
            omega
          rw [he, intersect_uint16_nil_right]
      rw [hnil]
      exact ⟨rfl, by simp, by simp⟩

end CRoaring
namespace CRoaring

/-- C8: in-place intersection returns the first container updated in place
(same capacity, same buffer length), holding exactly `A ∩ B` in ascending
order with the cardinality set to the intersection size; the second container
is only read, and after every loop iteration the write cursor is at or below
the first read cursor, which is what makes the in-place overwrite safe. -/
theorem array_container_intersection_inplace_spec (a b : array_container_t)
    (ha : Inv a) (hb : Inv b) : inplace_post a b := by
  obtain ⟨⟨halen, hacard⟩, hsa⟩ := ha
  obtain ⟨⟨hblen, hbcard⟩, hsb⟩ := hb
  obtain ⟨hL, hC, hT⟩ := ii_run_spec b.array a.cardinality b.cardinality
    (a.cardinality + b.cardinality)
    { arr := a.array, card := 0, read1_pos := 0, read2_pos := 0 }
    (by dsimp only; omega) (by dsimp only; omega) (by dsimp only; omega)
    (by dsimp only; omega) (by omega) (by dsimp only; omega)
  have hreq : array_container_intersection_inplace a b =
      { a with
        array := (ii_run b.array a.cardinality b.cardinality
          (a.cardinality + b.cardinality)
          { arr := a.array, card := 0, read1_pos := 0, read2_pos := 0 }).arr,
        cardinality := (ii_run b.array a.cardinality b.cardinality
          (a.cardinality + b.cardinality)
          { arr := a.array, card := 0, read1_pos := 0, read2_pos := 0 }).card }
      := rfl
  have hT' : (ii_run b.array a.cardinality b.cardinality
      (a.cardinality + b.cardinality)
      { arr := a.array, card := 0, read1_pos := 0, read2_pos := 0 }).arr.take
        (ii_run b.array a.cardinality b.cardinality
          (a.cardinality + b.cardinality)
          { arr := a.array, card := 0, read1_pos := 0, read2_pos := 0 }).card =
      intersect_uint16 (elems a) (elems b) := by
    rw [hT]
    simp [elems]
  have hC' : (ii_run b.array a.cardinality b.cardinality
      (a.cardinality + b.cardinality)
      { arr := a.array, card := 0, read1_pos := 0, read2_pos := 0 }).card =
      (intersect_uint16 (elems a) (elems b)).length := by
    rw [hC]
    simp [elems]
  have helems : elems (array_container_intersection_inplace a b) =
      intersect_uint16 (elems a) (elems b) := by
    rw [hreq]
    show (ii_run b.array a.cardinality b.cardinality
      (a.cardinality + b.cardinality)
      { arr := a.array, card := 0, read1_pos := 0, read2_pos := 0 }).arr.take
        (ii_run b.array a.cardinality b.cardinality
          (a.cardinality + b.cardinality)
          { arr := a.array, card := 0, read1_pos := 0, read2_pos := 0 }).card =
      intersect_uint16 (elems a) (elems b)
    exact hT'
  unfold inplace_post
  refine ⟨rfl, ?_, ?_, ?_, ?_, helems, ?_⟩
  · rw [hreq]
    exact hL
  · rw [helems]
    exact sorted_intersect_uint16 _ _ hsa
  · intro x
    rw [helems]
    exact mem_intersect_uint16 x _ _ hsa hsb
  · rw [helems, hreq]
    exact hC'
  · intro n
    exact ii_run_cursor b.array a.cardinality b.cardinality n
      { arr := a.array, card := 0, read1_pos := 0, read2_pos := 0 }
      (by dsimp only; omega)

/-- Witness for C8 at the containers {1,3,5} and {3,4,5}. -/
theorem array_container_intersection_inplace_spec_witness :
    Inv exA ∧ Inv exB ∧ inplace_post exA exB :=
  ⟨by decide, by decide,
    array_container_intersection_inplace_spec exA exB (by decide) (by decide)⟩

end CRoaring
